import Mathlib

/-!
# Verification of the otr3 core against its specification

Shallow embedding of the otr3 library core (Go) in Lean 4: wire codec,
AKE context operations, SMP state machine dispatch, query-message version
negotiation, conversation teardown, persistence codec, and the
fragmentation engine.  Byte strings are modelled as `List Nat` (each entry
a byte value), Go `*big.Int` values as `Option Nat` (`none` = nil pointer,
all values in this code are non-negative), and fallible Go functions as
`Except`/`Option` returns.
-/

namespace Otr3

/-- Byte values of an ASCII string literal. -/
def strBytes (s : String) : List Nat := s.toList.map Char.toNat

/-- Big-endian interpretation of a byte list as a natural number
(Go `big.Int.SetBytes` / `binary.BigEndian`). -/
def beNat (l : List Nat) : Nat := l.foldl (fun acc b => acc * 256 + b) 0

/-- Function `extractData` from the source: read a 4-byte big-endian length `n`,
then `n` bytes.  Returns `(remaining, data)`; `none` when the input is
shorter than 4 bytes or the length field exceeds the remaining input. -/
def extractData (msg : List Nat) : Option (List Nat × List Nat) :=
  if msg.length < 4 then none
  else
    let n := beNat (msg.take 4)
    let rest := msg.drop 4
    if n ≤ rest.length then some (rest.drop n, rest.take n) else none

/-- Function `extractMPI` from the source: like `extractData` but the payload is
interpreted as a big-endian unsigned integer. -/
def extractMPI (msg : List Nat) : Option (List Nat × Nat) :=
  (extractData msg).map (fun p => (p.1, beNat p.2))

/-- Errors returned by the otr3 core (`errors.New` / `newOtrError` values
in the source, plus sentinel errors). -/
inductive otrError where
  | corruptDHCommit
  | corruptDHKey
  | corruptRevealSig
  | corruptSig
  | corruptDataMsg
  | wrongTLVLength
  | dhValueOutOfRange
  | invalidVersion
  | invalidOTRFragment
  | shortRandomRead
  | gobTypeMismatch
  | gobShortStream
  deriving DecidableEq, Repr

/-- The fixed 1536-bit OTR MODP prime `p` (RFC 3526 group 5).
Modelled from the spec: the source keeps this constant in its DH
primitives file, which is outside the provided sources; the spec names it
"the fixed OTR 1536-bit MODP prime". -/
def otrPrime : Nat :=
  0xFFFFFFFFFFFFFFFFC90FDAA22168C234C4C6628B80DC1CD129024E088A67CC74020BBEA63B139B22514A08798E3404DDEF9519B3CD3A431B302B0A6DF25F14374FE1356D6D51C245E485B576625E7EC6F44C42E9A637ED6B0BFF5CB6F406B7EDEE386BFB5A899FA5AE9F24117C4B1FE649286651ECE45B3DC2007CB8A163BF0598DA48361C55D39A69163FA8FD24CF5F83655D23DCA3AD961C62F356208552BB9ED529077096966D670C354E4ABC9804F1746C08CA237327FFFFFFFFFFFFFFFF

/-- The group generator `g1 = 2`.  Modelled from the spec (DH primitives
are outside the provided sources). -/
def g1 : Nat := 2

/-- The value `p - 2`, the upper bound for valid group elements. -/
def pMinusTwo : Nat := otrPrime - 2

/-- Predicate `isGroupElement` — modelled from the spec: `2 ≤ value ≤ p-2` where `p`
is the fixed OTR prime (the implementation lives in the DH primitives
file, outside the provided sources; the range test in
`dhKey.deserialize` in the sources uses the same bounds `g1`/`pMinusTwo`). -/
def isGroupElement (n : Nat) : Bool := g1 ≤ n && n ≤ pMinusTwo

/-! ## Query messages (`query.go`) -/

/-- Decimal digit value of an ASCII byte, `none` when the byte is not a
digit (models `strconv.Atoi` applied to a one-character string). -/
def digitVal (c : Nat) : Option Nat :=
  if 48 ≤ c ∧ c ≤ 57 then some (c - 48) else none

/-- Function `parseOTRQueryMessage` from `query.go`: strip the `?OTR` marker; a
following `?` records version 1; if the next byte is `v`, every ASCII
digit among the remaining bytes is recorded as a version. -/
def parseOTRQueryMessage (msg : List Nat) : List Nat :=
  if (strBytes "?OTR").isPrefixOf msg ∧ msg.length > 4 then
    let versions := msg.drop 4
    let ret : List Nat := if versions.head? = some 63 then [1] else []
    let versions' := if versions.head? = some 63 then versions.drop 1 else versions
    if versions'.length > 0 ∧ versions'.head? = some 118 then
      ret ++ versions'.filterMap digitVal
    else ret
  else []

/-- The policies bitmask, restricted to the two version-allowance bits the
query code consults (`p.has(allowV2)` / `p.has(allowV3)`). -/
structure policies where
  allowV2 : Bool
  allowV3 : Bool
  deriving DecidableEq, Repr

/-- Protocol version capability values (`otrV2{}` / `otrV3{}`). -/
inductive otrVersionT where
  | V2
  | V3
  deriving DecidableEq, Repr

/-- The loop body of `acceptOTRRequest`: first advertised version that the
policy allows, scanning the parsed version list in order. -/
def acceptVersions (p : policies) : List Nat → Option otrVersionT
  | [] => none
  | v :: rest =>
      if v = 3 ∧ p.allowV3 then some .V3
      else if v = 2 ∧ p.allowV2 then some .V2
      else acceptVersions p rest

/-- Function `acceptOTRRequest` from `query.go`: parse the query message and pick a
version from the advertised list. -/
def acceptOTRRequest (p : policies) (msg : List Nat) : Option otrVersionT :=
  acceptVersions p (parseOTRQueryMessage msg)

/-- Function `receiveQueryMessage` from `query.go`, restricted to version
negotiation: fails with `errInvalidVersion` when no advertised version is
allowed, otherwise commits to the accepted version (the subsequent
`sendDHCommit` is AKE start, not version selection). -/
def receiveQueryMessage (p : policies) (msg : List Nat) : Except otrError otrVersionT :=
  match acceptOTRRequest p msg with
  | none => .error .invalidVersion
  | some v => .ok v

/-- The version-selection rule as the spec words it: the version chosen is
the first advertised version (in the order they appear in the query
message) that the policy allows — written independently with `List.find?`
for comparison against the source's loop. -/
def specFirstAllowedVersion (p : policies) (msg : List Nat) : Option otrVersionT :=
  ((parseOTRQueryMessage msg).find?
      (fun v => (v == 3 && p.allowV3) || (v == 2 && p.allowV2))).map
    (fun v => if v = 3 then otrVersionT.V3 else otrVersionT.V2)

/-! ## AKE wire messages (`messages` source file) -/

/-- Result of `dhKey.deserialize`: the parsed `gy` on success. -/
def dhKeyDeserialize (msg : List Nat) : Except otrError Nat :=
  match extractMPI msg with
  | none => .error .corruptDHKey
  | some (_, gy) =>
      if gy < g1 ∨ gy > pMinusTwo then .error .dhValueOutOfRange
      else .ok gy

/-- Result of `revealSig.deserialize`: `(r, encryptedSig, macSig)`.
The first DATA field is `r`, the second DATA field is the encrypted
signature, and everything after it is the MAC, which must be exactly
20 bytes. -/
def revealSigDeserialize (msg : List Nat) :
    Except otrError (List Nat × List Nat × List Nat) :=
  match extractData msg with
  | none => .error .corruptRevealSig
  | some (inRest, r) =>
      match extractData inRest with
      | none => .error .corruptRevealSig
      | some (macSig, encryptedSig) =>
          if macSig.length ≠ 20 then .error .corruptRevealSig
          else .ok (r, encryptedSig, macSig)

/-- Result of `sig.deserialize`: `(encryptedSig, macSig)`. -/
def sigDeserialize (msg : List Nat) : Except otrError (List Nat × List Nat) :=
  match extractData msg with
  | none => .error .corruptSig
  | some (macSig, encryptedSig) =>
      if macSig.length ≠ 20 then .error .corruptSig
      else .ok (encryptedSig, macSig)

/-- A parsed TLV record (`tlv` struct). -/
structure tlvT where
  tlvType : Nat
  tlvLength : Nat
  tlvValue : List Nat
  deriving DecidableEq, Repr

/-- Outcome of a Go function that can also panic: `panic` models an
out-of-bounds index or slice in the source. -/
inductive goResult (α : Type) where
  | ok (a : α)
  | error (e : otrError)
  | panic
  deriving DecidableEq, Repr

/-- Big-endian 16-bit read (`binary.BigEndian.Uint16`). -/
def be16 (a b : Nat) : Nat := a * 256 + b

/-- The TLV loop of `dataMsg.deserialize` over the bytes after the leading
`0x00`.  When fewer than 4 bytes remain the source slices
`tlvsBytes[index:index+2]` / `[index+2:index+4]` past the end, which
panics; when the announced value length exceeds the remaining bytes it
returns the "wrong tlv length" error. -/
def parseTLVs (bytes : List Nat) : goResult (List tlvT) :=
  match _ht : bytes with
  | [] => .ok []
  | _ :: _ =>
      if bytes.length < 4 then .panic
      else
        let t := be16 (bytes.headI) (bytes.tail.headI)
        let l := be16 (bytes.tail.tail.headI) (bytes.tail.tail.tail.headI)
        if 4 + l > bytes.length then .error .wrongTLVLength
        else
          match parseTLVs (bytes.drop (4 + l)) with
          | .ok tlvs => .ok (⟨t, l, (bytes.drop 4).take l⟩ :: tlvs)
          | .error e => .error e
          | .panic => .panic
  termination_by bytes.length
  decreasing_by
    simp_all

/-- Method `dataMsg.deserialize`: the source indexes `msg[0]` without a length
check, so the empty input panics; a nonzero first byte is the corrupt
data message error; then the TLV loop runs on the remaining bytes. -/
def dataMsgDeserialize (msg : List Nat) : goResult (List tlvT) :=
  match msg with
  | [] => .panic
  | b :: rest =>
      if b ≠ 0 then .error .corruptDataMsg
      else parseTLVs rest

/-! ## AKE context (`ake.go`) -/

/-- A derived key bundle (`akeKeys` struct: `c`, `m1`, `m2`). -/
structure akeKeys where
  c : List Nat
  m1 : List Nat
  m2 : List Nat
  deriving DecidableEq, Repr

/-- The `ake` struct fields that the verified operations touch.  Go
`*big.Int` fields are `Option Nat` (`none` = nil). -/
structure akeT where
  secretExponent : Option Nat
  ourPublicValue : Option Nat
  theirPublicValue : Option Nat
  r : List Nat
  encryptedGx : List Nat
  hashedGx : List Nat
  revealKey : akeKeys
  sigKey : akeKeys
  deriving DecidableEq, Repr

/-- Method `Conversation.processDHKey`: deserialize the DH-Key message, check the
group-element range, and either record `gy` (first time) or report
whether it equals the already-stored value.  Returns
`(isSame, updated ake, error)`. -/
def processDHKey (a : akeT) (msg : List Nat) :
    Bool × akeT × Option otrError :=
  match dhKeyDeserialize msg with
  | .error e => (false, a, some e)
  | .ok gy =>
      if ¬ isGroupElement gy then (false, a, some .dhValueOutOfRange)
      else
        match a.theirPublicValue with
        | some v => (v == gy, a, none)
        | none => (false, { a with theirPublicValue := some gy }, none)

/-! ## AKE persistence (`ake.GobEncode` / `ake.GobDecode`) -/

/-- A value on the gob stream.  gob is a typed encoding: a decode into a
Go variable of a different type (for example a `[16]byte` array value
into a `[]byte` slice variable) fails, which the tag carried by each
token models.  `vInt` is an encoded `*big.Int`, `vBytes` a `[]byte`,
`vArr16`/`vArr32` fixed-size byte arrays, `vKeys` an `akeKeys` struct. -/
inductive gobValue where
  | vInt (n : Nat)
  | vBytes (b : List Nat)
  | vArr16 (b : List Nat)
  | vArr32 (b : List Nat)
  | vKeys (k : akeKeys)
  deriving DecidableEq, Repr

/-- Method `ake.GobEncode`: the three big-int fields are encoded only when
non-nil, then `r`, `encryptedGx`, `hashedGx`, `revealKey`, `sigKey`
unconditionally. -/
def akeGobEncode (a : akeT) : List gobValue :=
  (match a.secretExponent with | some x => [gobValue.vInt x] | none => []) ++
  (match a.ourPublicValue with | some x => [gobValue.vInt x] | none => []) ++
  (match a.theirPublicValue with | some x => [gobValue.vInt x] | none => []) ++
  [gobValue.vArr16 a.r, gobValue.vBytes a.encryptedGx, gobValue.vArr32 a.hashedGx,
   gobValue.vKeys a.revealKey, gobValue.vKeys a.sigKey]

/-- Method `ake.GobDecode`: decodes, in order, `secretExponent`,
`ourPublicValue`, `theirPublicValue`, `encryptedGx`, `hashedGx`,
`revealKey`, `sigKey` — and never decodes `r`.  Fields of the receiver
`a0` that are not decoded keep their prior values.  A missing token is a
stream error; a token of the wrong type is a type-mismatch error. -/
def akeGobDecode (a0 : akeT) (toks : List gobValue) : Except otrError akeT :=
  match toks with
  | .vInt se :: .vInt op :: .vInt tp :: .vBytes egx :: .vArr32 hgx ::
      .vKeys rk :: .vKeys sk :: _ =>
      .ok { a0 with
            secretExponent := some se, ourPublicValue := some op,
            theirPublicValue := some tp, encryptedGx := egx,
            hashedGx := hgx, revealKey := rk, sigKey := sk }
  | .vInt _ :: .vInt _ :: .vInt _ :: .vBytes _ :: .vArr32 _ :: .vKeys _ :: [] =>
      .error .gobShortStream
  | .vInt _ :: .vInt _ :: .vInt _ :: .vBytes _ :: .vArr32 _ :: .vKeys _ :: _ :: _ =>
      .error .gobTypeMismatch
  | .vInt _ :: .vInt _ :: .vInt _ :: .vBytes _ :: .vArr32 _ :: [] =>
      .error .gobShortStream
  | .vInt _ :: .vInt _ :: .vInt _ :: .vBytes _ :: .vArr32 _ :: _ :: _ =>
      .error .gobTypeMismatch
  | .vInt _ :: .vInt _ :: .vInt _ :: .vBytes _ :: [] => .error .gobShortStream
  | .vInt _ :: .vInt _ :: .vInt _ :: .vBytes _ :: _ :: _ => .error .gobTypeMismatch
  | .vInt _ :: .vInt _ :: .vInt _ :: [] => .error .gobShortStream
  | .vInt _ :: .vInt _ :: .vInt _ :: _ :: _ => .error .gobTypeMismatch
  | .vInt _ :: .vInt _ :: [] => .error .gobShortStream
  | .vInt _ :: .vInt _ :: _ :: _ => .error .gobTypeMismatch
  | .vInt _ :: [] => .error .gobShortStream
  | .vInt _ :: _ :: _ => .error .gobTypeMismatch
  | [] => .error .gobShortStream
  | _ :: _ => .error .gobTypeMismatch

/-! ## Conversation teardown (`Conversation.End`) -/

/-- Message state of a conversation (`msgState` enum). -/
inductive msgStateT where
  | plainText
  | encrypted
  | finished
  deriving DecidableEq, Repr

/-- A DH keypair held by the key-management context. -/
structure dhKeyPairT where
  priv : Nat
  pub : Nat
  deriving DecidableEq, Repr

/-- The key-management fields `Conversation.End` wipes. -/
structure keyManagementContextT where
  ourCurrentDHKeys : dhKeyPairT
  ourPreviousDHKeys : dhKeyPairT
  theirCurrentDHPubKey : Nat
  deriving DecidableEq, Repr

/-- SMP protocol state values (`smpStateExpect1` … `smpStateExpect4`). -/
inductive smpStateT where
  | expect1
  | expect2
  | expect3
  | expect4
  deriving DecidableEq, Repr

/-- The SMP context: state, shared secret and the stored intermediates
`s1`, `s2`, `s3` (abstract scalars, modelled as numbers; `none` = not yet
stored). -/
structure smpT where
  state : smpStateT
  secret : Nat
  s1 : Option Nat
  s2 : Option Nat
  s3 : Option Nat
  deriving DecidableEq, Repr

/-- Function `smp.wipe` — modelled from the spec: SMP secret and intermediates are
overwritten with zeros (the wipe helper lives outside the provided
sources; the spec's zeroization rule says secrets are zeroed and the
state machine restarts from scratch). -/
def smpWipe (s : smpT) : smpT :=
  { s with secret := 0, s1 := none, s2 := none, s3 := none }

/-- The conversation fields relevant to teardown. -/
structure conversationT where
  msgState : msgStateT
  ake : Option akeT
  smp : smpT
  keys : keyManagementContextT
  deriving DecidableEq, Repr

/-- Method `Conversation.End` from the source: when the conversation is
encrypted, wipe the SMP context and emit a disconnected-TLV data message
(the data-message generation layer is out of scope per the spec and does
not touch the fields modelled here); in every case set the message state
to plaintext and wipe `keys.ourCurrentDHKeys`, `keys.ourPreviousDHKeys`
and `keys.theirCurrentDHPubKey`.  The `ake` field is not mentioned by the
source of `End` and is passed through unchanged. -/
def conversationEnd (c : conversationT) : conversationT :=
  let c1 := if c.msgState = .encrypted then { c with smp := smpWipe c.smp } else c
  { c1 with
    msgState := .plainText,
    keys := { ourCurrentDHKeys := ⟨0, 0⟩, ourPreviousDHKeys := ⟨0, 0⟩,
              theirCurrentDHPubKey := 0 } }

/-! ## SMP state machine dispatch (`smp_state_machine.go`) -/

/-- An incoming SMP message: the four numbered protocol messages (their
payloads only matter inside the verification helpers, which the
environment below abstracts) and the abort message. -/
inductive smpMessageT where
  | msg1
  | msg2
  | msg3
  | msg4
  | abortMsg
  deriving DecidableEq, Repr

/-- The TLV-type-derived message number each state expects
(`smpStateExpect1` handles `receiveMessage1`, and so on). -/
def expectedMessageNumber : smpStateT → Nat
  | .expect1 => 1
  | .expect2 => 2
  | .expect3 => 3
  | .expect4 => 4

/-- Message number of a numbered SMP message (`abortMsg` has none and is
assigned 0). -/
def smpMessageNumber : smpMessageT → Nat
  | .msg1 => 1
  | .msg2 => 2
  | .msg3 => 3
  | .msg4 => 4
  | .abortMsg => 0

/-- Outcomes of the verification and generation helpers called by the
four matched handlers (`verifySMP1..4`, `generateSMP2..4`,
`verifySMP3/4ProtocolSuccess`); these helpers live in the SMP protocol
file outside the provided sources, so the dispatch model abstracts over
their results. -/
structure smpEnv where
  verify1 : Option otrError
  verify2 : Option otrError
  verify3 : Option otrError
  verify3Success : Option otrError
  verify4 : Option otrError
  verify4Success : Option otrError
  generate2ok : Bool
  generate3ok : Bool
  generate4ok : Bool
  deriving Repr

/-- One dispatch step of the SMP state machine
(`smpMessage.receivedMessage` → `smpState.receiveMessageN`): an abort
message resets to `Expect1` silently; a numbered message reaching a state
that does not expect it falls through to the `smpStateBase` handler,
which is `abortStateMachine()` — reset to `Expect1` and emit the abort
message; a numbered message reaching its matching state runs the handler
skeleton from the source over the abstracted helper outcomes.  Returns
`(new state, message to send, error)`. -/
def smpReceive (env : smpEnv) (s : smpStateT) (m : smpMessageT) :
    smpStateT × Option smpMessageT × Option otrError :=
  match m, s with
  | .abortMsg, _ => (.expect1, none, none)
  | .msg1, .expect1 =>
      match env.verify1 with
      | some e => (.expect1, some .abortMsg, some e)
      | none =>
          if env.generate2ok then (.expect3, some .msg2, none)
          else (.expect1, some .abortMsg, some .shortRandomRead)
  | .msg2, .expect2 =>
      match env.verify2 with
      | some e => (.expect1, some .abortMsg, some e)
      | none =>
          if env.generate3ok then (.expect4, some .msg3, none)
          else (.expect1, some .abortMsg, some .shortRandomRead)
  | .msg3, .expect3 =>
      match env.verify3 with
      | some e => (.expect1, some .abortMsg, some e)
      | none =>
          match env.verify3Success with
          | some e => (.expect1, some .abortMsg, some e)
          | none =>
              if env.generate4ok then (.expect1, some .msg4, none)
              else (.expect1, some .abortMsg, some .shortRandomRead)
  | .msg4, .expect4 =>
      match env.verify4 with
      | some e => (.expect1, some .abortMsg, some e)
      | none =>
          match env.verify4Success with
          | some e => (.expect1, some .abortMsg, some e)
          | none => (.expect1, none, none)
  | _, _ => (.expect1, some .abortMsg, none)

/-! ## Fragmentation engine

The `fragment`/`receiveFragment`/`parseFragment`/`fragmentsFinished`
functions live in the fragmentation file, which is outside the provided
sources; only their unit tests are under `src/`.  The definitions below
are modelled from the spec (§4.2) and cross-checked against those tests:
the v3 prefix format is `otrV3.fragmentPrefix` from the sources
(`"?OTR|%08x|%08x,%05d,%05d,"`), payload chunks are `fragmentSize` bytes
(test `Test_fragment_returnsFragmentsForNeededFragmentation`), a
fragment's post-prefix part must split on commas into exactly
`idx, total, payload, ""` (tests `Test_parseFragment_*`), and index/total
parse as 16-bit decimal numbers (`fragmentationContext` carries `uint16`
fields). -/

/-- Little-endian base-`base` digits of `n`, computed with structural
fuel so that concrete inputs evaluate inside the kernel; `natDigits`
below supplies enough fuel and agrees with `Nat.digits`. -/
def natDigitsAux (base : Nat) : Nat → Nat → List Nat
  | 0, _ => []
  | fuel + 1, n => if n = 0 then [] else n % base :: natDigitsAux base fuel (n / base)

/-- Little-endian base-`base` digits of `n` (no leading zeros, `[]` for 0). -/
def natDigits (base n : Nat) : List Nat := natDigitsAux base n n

/-- ASCII decimal digits of `n`, most significant first (`"0"` for 0). -/
def decDigits (n : Nat) : List Nat :=
  if n = 0 then [48] else (natDigits 10 n).reverse.map (· + 48)

/-- Format `%05d`: decimal digits zero-padded on the left to width 5 (wider
numbers print in full, as Go's `fmt` does). -/
def pad5 (n : Nat) : List Nat :=
  List.replicate (5 - (decDigits n).length) 48 ++ decDigits n

/-- ASCII code of a lowercase hex digit. -/
def hexDigitChar (d : Nat) : Nat := if d < 10 then 48 + d else 87 + d

/-- ASCII lowercase hex digits of `n`, most significant first. -/
def hexDigits (n : Nat) : List Nat :=
  if n = 0 then [48] else (natDigits 16 n).reverse.map hexDigitChar

/-- Format `%08x`: lowercase hex zero-padded on the left to width 8. -/
def hex8 (n : Nat) : List Nat :=
  List.replicate (8 - (hexDigits n).length) 48 ++ hexDigits n

/-- Read every byte through the digit reader `dv`, failing when any byte
is rejected. -/
def mapOption (f : Nat → Option Nat) : List Nat → Option (List Nat)
  | [] => some []
  | x :: xs =>
      match f x, mapOption f xs with
      | some y, some ys => some (y :: ys)
      | _, _ => none

/-- Parse a nonempty all-digit byte list in the given base using the
digit reader `dv`, most significant digit first. -/
def parseDigitsWith (dv : Nat → Option Nat) (base : Nat) (l : List Nat) :
    Option Nat :=
  if l = [] then none
  else (mapOption dv l).map (fun ds => ds.foldl (fun a d => a * base + d) 0)

/-- Parse an unsigned decimal number (`strconv.ParseUint(s, 10, 16)`):
digits only, value below `2^16`. -/
def parseUint16 (l : List Nat) : Option Nat :=
  (parseDigitsWith digitVal 10 l).bind (fun n => if n < 65536 then some n else none)

/-- Hex digit value of an ASCII byte (upper or lower case). -/
def hexVal (c : Nat) : Option Nat :=
  if 48 ≤ c ∧ c ≤ 57 then some (c - 48)
  else if 97 ≤ c ∧ c ≤ 102 then some (c - 87)
  else if 65 ≤ c ∧ c ≤ 70 then some (c - 55)
  else none

/-- Parse an exactly-8-hex-digit instance tag (`%08x` wire format,
`strconv.ParseUint(s, 16, 32)`). -/
def parseHex8 (l : List Nat) : Option Nat :=
  if l.length = 8 then parseDigitsWith hexVal 16 l else none

/-- The fragmentation reassembly context (`fragmentationContext`:
`{frag, currentIndex, currentLen}`). -/
structure fragmentationContextT where
  frag : List Nat
  currentIndex : Nat
  currentLen : Nat
  deriving DecidableEq, Repr

/-- The zero value `fragmentationContext{}`. -/
def emptyFragmentationContext : fragmentationContextT := ⟨[], 0, 0⟩

/-- Function `fragmentsFinished`: reassembly is complete when the current index is
positive and equals the expected count. -/
def fragmentsFinished (ctx : fragmentationContextT) : Bool :=
  decide (0 < ctx.currentIndex) && ctx.currentIndex == ctx.currentLen

/-- Minimum fragment size per version: `otrV3.minFragmentSize() = 26`
from the sources; the v2 value is modelled from the spec as the v2
per-fragment overhead `O = |"?OTR,NNNNN,NNNNN,"| + 1 = 18` (the spec does
not state it and otrV2 is outside the provided sources). -/
def minFragmentSize : otrVersionT → Nat
  | .V2 => 18
  | .V3 => 26

/-- Predicate `isFragmented`: a message is a fragment iff it starts with the v2
prefix `"?OTR,"`, or (when running v3) the v3 prefix `"?OTR|"`
(`otrV3.isFragmented` from the sources; `otrV2` modelled from the spec). -/
def isFragmented (v : otrVersionT) (data : List Nat) : Bool :=
  match v with
  | .V2 => (strBytes "?OTR,").isPrefixOf data
  | .V3 => (strBytes "?OTR|").isPrefixOf data || (strBytes "?OTR,").isPrefixOf data

/-- The per-fragment prefix: v3 is
`?OTR|<sender:8x>|<receiver:8x>,<idx:5d>,<total:5d>,` (source
`otrV3.fragmentPrefix`, with `idx` already 1-based here); v2 is
`?OTR,<idx:5d>,<total:5d>,` (spec §4.2). -/
def fragmentPrefix (v : otrVersionT) (ourTag theirTag idx total : Nat) : List Nat :=
  match v with
  | .V2 => strBytes "?OTR," ++ pad5 idx ++ [44] ++ pad5 total ++ [44]
  | .V3 => strBytes "?OTR|" ++ hex8 ourTag ++ [124] ++ hex8 theirTag ++ [44] ++
      pad5 idx ++ [44] ++ pad5 total ++ [44]

/-- Chunk splitting with structural fuel (one unit per produced chunk);
`chunksOf` supplies enough fuel. -/
def chunksOfAux (F : Nat) : Nat → List Nat → List (List Nat)
  | 0, _ => []
  | fuel + 1, l =>
      if l = [] ∨ F = 0 then []
      else l.take F :: chunksOfAux F fuel (l.drop F)

/-- Split a byte list into chunks of `F` bytes (the last chunk may be
shorter).  For `F = 0` (never used: limits are at least the minimum
fragment size) the result is `[]`. -/
def chunksOf (F : Nat) (l : List Nat) : List (List Nat) :=
  chunksOfAux F l.length l

/-- The numbered-and-terminated wire fragments for a chunk list, starting
at index `idx`. -/
def fragmentAux (v : otrVersionT) (ourTag theirTag total : Nat) :
    Nat → List (List Nat) → List (List Nat)
  | _, [] => []
  | idx, p :: ps =>
      (fragmentPrefix v ourTag theirTag idx total ++ p ++ [44]) ::
        fragmentAux v ourTag theirTag total (idx + 1) ps

/-- Method `Conversation.fragment` — modelled from the spec and the tests: a
message no longer than the limit is returned verbatim as a single
element; otherwise it is cut into `fragmentSize`-byte chunks, each
wrapped in the version's fragment prefix (1-indexed, total = number of
chunks) and a terminating comma. -/
def fragment (v : otrVersionT) (ourTag theirTag : Nat) (data : List Nat)
    (fragmentSize : Nat) : List (List Nat) :=
  if data.length ≤ fragmentSize then [data]
  else
    let ps := chunksOf fragmentSize data
    fragmentAux v ourTag theirTag ps.length 1 ps

/-- Split on the comma byte (`bytes.Split(data, ",")`): always returns
one more part than there are commas. -/
def splitComma : List Nat → List (List Nat)
  | [] => [[]]
  | b :: rest =>
      if b = 44 then [] :: splitComma rest
      else
        match splitComma rest with
        | h :: t => (b :: h) :: t
        | [] => [[b]]

/-- Function `parseFragment` — modelled from the spec and the `parseFragment`
tests: the post-prefix bytes must split on commas into exactly
`[idx, total, payload, ""]`, with `idx` and `total` parsing as 16-bit
decimal numbers. -/
def parseFragmentFields (rest : List Nat) : Option (Nat × Nat × List Nat) :=
  match splitComma rest with
  | [a, b, p, e] =>
      if e = [] then
        match parseUint16 a, parseUint16 b with
        | some i, some t => some (i, t, p)
        | _, _ => none
      else none
  | _ => none

/-- Parse the v3 instance-tag header `<sender:8x>|<receiver:8x>,` that
follows `"?OTR|"`; returns `(sender, receiver, rest)`. -/
def parseItagHeader (l : List Nat) : Option (Nat × Nat × List Nat) :=
  match parseHex8 (l.take 8) with
  | none => none
  | some snd =>
      if (l.drop 8).head? = some 124 then
        match parseHex8 ((l.drop 9).take 8) with
        | none => none
        | some rcv =>
            if (l.drop 17).head? = some 44 then some (snd, rcv, l.drop 18)
            else none
      else none

/-- The index/total state machine of reassembly (spec §4.2): a zero index
or count or an index beyond the count resets the context; index 1 starts
a new context; index `current+1` with an unchanged count appends;
anything else resets. -/
def applyFragment (ctx : fragmentationContextT) (idx total : Nat)
    (payload : List Nat) : fragmentationContextT :=
  if idx = 0 ∨ total = 0 ∨ idx > total then emptyFragmentationContext
  else if idx = 1 then ⟨payload, 1, total⟩
  else if idx = ctx.currentIndex + 1 ∧ total = ctx.currentLen then
    ⟨ctx.frag ++ payload, idx, total⟩
  else emptyFragmentationContext

/-- Outcome of `receiveFragment`: success, the invalid-fragment error, or
one of the two signalled message events. -/
inductive fragOutcome where
  | ok
  | errInvalidFragment
  | evOtherInstance
  | evMalformed
  deriving DecidableEq, Repr

/-- Function `receiveFragment` — modelled from the spec (§4.2) and its tests: a v3
fragment parses its instance-tag header, then the `idx,total,payload,`
fields; a receiver-tag mismatch with our tag, or a sender-tag mismatch
with the stored their-tag (when both are set), signals
`ReceivedMessageForOtherInstance` with the context unchanged; a sender
tag below `0x100` signals `MessageMalformed`; otherwise the index/total
state machine runs.  A v2 fragment (also accepted when running v3) skips
the instance-tag filtering.  Parse failures are the invalid-fragment
error with the context unchanged. -/
def receiveFragment (v : otrVersionT) (ourTag theirTag : Nat)
    (ctx : fragmentationContextT) (data : List Nat) :
    fragmentationContextT × fragOutcome :=
  if (strBytes "?OTR|").isPrefixOf data ∧ v = .V3 then
    match parseItagHeader (data.drop 5) with
    | none => (ctx, .errInvalidFragment)
    | some (snd, rcv, rest) =>
        match parseFragmentFields rest with
        | none => (ctx, .errInvalidFragment)
        | some (idx, total, payload) =>
            if rcv ≠ ourTag ∨ (snd ≠ 0 ∧ theirTag ≠ 0 ∧ snd ≠ theirTag) then
              (ctx, .evOtherInstance)
            else if snd < 256 then (ctx, .evMalformed)
            else (applyFragment ctx idx total payload, .ok)
  else if (strBytes "?OTR,").isPrefixOf data then
    match parseFragmentFields (data.drop 5) with
    | none => (ctx, .errInvalidFragment)
    | some (idx, total, payload) => (applyFragment ctx idx total payload, .ok)
  else (ctx, .errInvalidFragment)

/-- Feed a list of messages through `receiveFragment` in order, starting
from the empty context. -/
def receiveAll (v : otrVersionT) (ourTag theirTag : Nat)
    (msgs : List (List Nat)) : fragmentationContextT :=
  msgs.foldl (fun c m => (receiveFragment v ourTag theirTag c m).1)
    emptyFragmentationContext

/-- Reassembly of a fragment list at the receiving conversation: a single
non-fragmented element is the message itself (un-fragmented sends pass
through `receiveFragment` only when they look fragmented); otherwise the
fragments run through the reassembly state machine in order and the
buffer is returned once `fragmentsFinished` holds. -/
def reassemble (v : otrVersionT) (ourTag theirTag : Nat)
    (msgs : List (List Nat)) : Option (List Nat) :=
  match msgs with
  | [m] =>
      if isFragmented v m then
        (if fragmentsFinished (receiveAll v ourTag theirTag msgs) then
          some (receiveAll v ourTag theirTag msgs).frag
         else none)
      else some m
  | _ =>
      if fragmentsFinished (receiveAll v ourTag theirTag msgs) then
        some (receiveAll v ourTag theirTag msgs).frag
      else none

/-- A fully populated example AKE context. -/
def akeEx : akeT :=
  { secretExponent := some 5, ourPublicValue := some 3, theirPublicValue := some 7,
    r := List.replicate 16 1, encryptedGx := [9], hashedGx := List.replicate 32 2,
    revealKey := ⟨[1], [2], [3]⟩, sigKey := ⟨[4], [5], [6]⟩ }

/-- An example conversation: plaintext message state (mid-AKE), with a
populated AKE context, SMP secrets and key-management keys. -/
def convEx : conversationT :=
  { msgState := .plainText, ake := some akeEx,
    smp := ⟨.expect1, 11, some 1, some 2, some 3⟩,
    keys := ⟨⟨13, 17⟩, ⟨19, 23⟩, 29⟩ }

theorem acceptVersions_eq_find (p : policies) (l : List Nat) :
    acceptVersions p l =
      (l.find? (fun v => (v == 3 && p.allowV3) || (v == 2 && p.allowV2))).map
        (fun v => if v = 3 then otrVersionT.V3 else otrVersionT.V2) := by
  induction l with
  | nil => rfl
  | cons v rest ih =>
      by_cases h3 : v = 3 ∧ p.allowV3
      · simp [acceptVersions, List.find?, h3.1, h3.2]
      · by_cases h2 : v = 2 ∧ p.allowV2
        · have hv3 : ¬ (v = 3) := by
            intro hv; exact absurd (hv ▸ h2.1) (by decide)
          simp [acceptVersions, List.find?, h3, h2.1, h2.2, hv3]
        · have hcond : ((v == 3 && p.allowV3) || (v == 2 && p.allowV2)) = false := by
            rcases Decidable.em (v = 3) with h | h
            · subst h
              have : ¬ p.allowV3 = true := fun ha => h3 ⟨rfl, ha⟩
              simp [this]
            · rcases Decidable.em (v = 2) with h' | h'
              · subst h'
                have : ¬ p.allowV2 = true := fun ha => h2 ⟨rfl, ha⟩
                simp [this]
              · simp [h, h']
          simp [acceptVersions, List.find?, hcond, h3, h2, ih]

/-! ## Digit formatting and parsing lemmas -/

theorem natDigitsAux_eq_digits (b : Nat) (hb : 2 ≤ b) :
    ∀ fuel n, n ≤ fuel → natDigitsAux b fuel n = Nat.digits b n := by
  intro fuel
  induction fuel with
  | zero =>
      intro n hn
      have : n = 0 := Nat.le_zero.mp hn
      subst this
      simp [natDigitsAux]
  | succ fuel ih =>
      intro n hn
      by_cases h0 : n = 0
      · subst h0; simp [natDigitsAux]
      · have hpos : 0 < n := Nat.pos_of_ne_zero h0
        have hdiv : n / b < n := Nat.div_lt_self hpos (by omega)
        rw [natDigitsAux, if_neg h0, ih (n / b) (by omega),
          Nat.digits_def' (by omega : 1 < b) hpos]

theorem natDigits_eq_digits (b : Nat) (hb : 2 ≤ b) (n : Nat) :
    natDigits b n = Nat.digits b n :=
  natDigitsAux_eq_digits b hb n n le_rfl

theorem foldl_reverse_ofDigits (b : Nat) :
    ∀ (L : List Nat) (a : Nat),
      L.reverse.foldl (fun acc d => acc * b + d) a =
        a * b ^ L.length + Nat.ofDigits b L := by
  intro L
  induction L with
  | nil => intro a; simp
  | cons d L ih =>
      intro a
      rw [List.reverse_cons, List.foldl_append]
      simp only [List.foldl_cons, List.foldl_nil, ih, Nat.ofDigits_cons,
        List.length_cons]
      ring

theorem mapOption_map (f : Nat → Option Nat) (g : Nat → Nat) :
    ∀ L : List Nat, (∀ d ∈ L, f (g d) = some d) →
      mapOption f (L.map g) = some L := by
  intro L
  induction L with
  | nil => intro _; rfl
  | cons d L ih =>
      intro h
      have hd := h d (List.mem_cons_self d L)
      have hL := ih (fun x hx => h x (List.mem_cons_of_mem d hx))
      simp [mapOption, hd, hL]

theorem mapOption_replicate48 (f : Nat → Option Nat) (h48 : f 48 = some 0) :
    ∀ (k : Nat) (rest ds : List Nat), mapOption f rest = some ds →
      mapOption f (List.replicate k 48 ++ rest) =
        some (List.replicate k 0 ++ ds) := by
  intro k
  induction k with
  | zero => intro rest ds h; simpa using h
  | succ k ih =>
      intro rest ds h
      simp [List.replicate_succ, mapOption, h48, ih rest ds h]

theorem foldl_replicate_zero (b : Nat) :
    ∀ (k : Nat) (L : List Nat),
      (List.replicate k 0 ++ L).foldl (fun a d => a * b + d) 0 =
        L.foldl (fun a d => a * b + d) 0 := by
  intro k
  induction k with
  | zero => intro L; simp
  | succ k ih => intro L; simpa [List.replicate_succ] using ih L

theorem parseDigitsWith_pad (dv : Nat → Option Nat) (base : Nat)
    (h48 : dv 48 = some 0) (k : Nat) (core : List Nat) (n : Nat)
    (hcore : parseDigitsWith dv base core = some n) :
    parseDigitsWith dv base (List.replicate k 48 ++ core) = some n := by
  unfold parseDigitsWith at hcore ⊢
  by_cases hne : core = []
  · simp [hne] at hcore
  · rw [if_neg hne] at hcore
    obtain ⟨ds, hds, hfold⟩ := Option.map_eq_some'.mp hcore
    have hne2 : List.replicate k 48 ++ core ≠ [] := by
      simp [hne]
    rw [if_neg hne2, mapOption_replicate48 dv h48 k core ds hds]
    simp only [Option.map_some']
    rw [foldl_replicate_zero base k ds, hfold]

theorem parseDigits_decDigits (n : Nat) :
    parseDigitsWith digitVal 10 (decDigits n) = some n := by
  by_cases h0 : n = 0
  · subst h0; decide
  · unfold decDigits
    rw [if_neg h0, natDigits_eq_digits 10 (by norm_num) n]
    have hne : (Nat.digits 10 n).reverse.map (· + 48) ≠ [] := by
      simp [Nat.digits_ne_nil_iff_ne_zero.mpr h0]
    unfold parseDigitsWith
    rw [if_neg hne]
    have hmap : mapOption digitVal ((Nat.digits 10 n).reverse.map (· + 48)) =
        some (Nat.digits 10 n).reverse := by
      apply mapOption_map
      intro d hd
      have hlt : d < 10 :=
        Nat.digits_lt_base (by norm_num) (List.mem_reverse.mp hd)
      unfold digitVal
      rw [if_pos (by omega : 48 ≤ d + 48 ∧ d + 48 ≤ 57)]
      simp
    rw [hmap]
    simp only [Option.map_some']
    rw [foldl_reverse_ofDigits 10 (Nat.digits 10 n) 0, Nat.ofDigits_digits]
    simp

theorem parseUint16_pad5 (n : Nat) (h : n < 65536) :
    parseUint16 (pad5 n) = some n := by
  unfold parseUint16 pad5
  rw [parseDigitsWith_pad digitVal 10 (by decide) _ (decDigits n) n
    (parseDigits_decDigits n)]
  simp [h]

theorem hexVal_hexDigitChar (d : Nat) (h : d < 16) :
    hexVal (hexDigitChar d) = some d := by
  interval_cases d <;> decide

theorem parseDigits_hexDigits (n : Nat) :
    parseDigitsWith hexVal 16 (hexDigits n) = some n := by
  by_cases h0 : n = 0
  · subst h0; decide
  · unfold hexDigits
    rw [if_neg h0, natDigits_eq_digits 16 (by norm_num) n]
    have hne : (Nat.digits 16 n).reverse.map hexDigitChar ≠ [] := by
      simp [Nat.digits_ne_nil_iff_ne_zero.mpr h0]
    unfold parseDigitsWith
    rw [if_neg hne]
    have hmap : mapOption hexVal ((Nat.digits 16 n).reverse.map hexDigitChar) =
        some (Nat.digits 16 n).reverse := by
      apply mapOption_map
      intro d hd
      exact hexVal_hexDigitChar d
        (Nat.digits_lt_base (by norm_num) (List.mem_reverse.mp hd))
    rw [hmap]
    simp only [Option.map_some']
    rw [foldl_reverse_ofDigits 16 (Nat.digits 16 n) 0, Nat.ofDigits_digits]
    simp

theorem hexDigits_length_le (n : Nat) (h : n < 2 ^ 32) :
    (hexDigits n).length ≤ 8 := by
  by_cases h0 : n = 0
  · subst h0; decide
  · unfold hexDigits
    rw [if_neg h0, natDigits_eq_digits 16 (by norm_num) n]
    simp only [List.length_map, List.length_reverse]
    rw [Nat.digits_len 16 n (by norm_num) h0]
    have hlog : Nat.log 16 n < 8 :=
      Nat.log_lt_of_lt_pow h0 (by norm_num at h ⊢; omega)
    omega

theorem hex8_length (n : Nat) (h : n < 2 ^ 32) : (hex8 n).length = 8 := by
  unfold hex8
  have := hexDigits_length_le n h
  simp only [List.length_append, List.length_replicate]
  omega

theorem parseHex8_hex8 (n : Nat) (h : n < 2 ^ 32) :
    parseHex8 (hex8 n) = some n := by
  unfold parseHex8
  rw [if_pos (hex8_length n h)]
  unfold hex8
  exact parseDigitsWith_pad hexVal 16 (by decide) _ (hexDigits n) n
    (parseDigits_hexDigits n)

/-! ## Byte-range lemmas for the formatted pieces -/

theorem decDigits_mem (n : Nat) : ∀ x ∈ decDigits n, 48 ≤ x ∧ x ≤ 57 := by
  intro x hx
  by_cases h0 : n = 0
  · subst h0; simp [decDigits] at hx; omega
  · unfold decDigits at hx
    rw [if_neg h0, natDigits_eq_digits 10 (by norm_num) n] at hx
    obtain ⟨d, hd, rfl⟩ := List.mem_map.mp hx
    have : d < 10 := Nat.digits_lt_base (by norm_num) (List.mem_reverse.mp hd)
    omega

theorem pad5_mem (n : Nat) : ∀ x ∈ pad5 n, 48 ≤ x ∧ x ≤ 57 := by
  intro x hx
  unfold pad5 at hx
  rcases List.mem_append.mp hx with h | h
  · have := List.eq_of_mem_replicate h
    omega
  · exact decDigits_mem n x h

theorem hexDigits_mem (n : Nat) :
    ∀ x ∈ hexDigits n, (48 ≤ x ∧ x ≤ 57) ∨ (97 ≤ x ∧ x ≤ 102) := by
  intro x hx
  by_cases h0 : n = 0
  · subst h0; simp [hexDigits] at hx; omega
  · unfold hexDigits at hx
    rw [if_neg h0, natDigits_eq_digits 16 (by norm_num) n] at hx
    obtain ⟨d, hd, rfl⟩ := List.mem_map.mp hx
    have : d < 16 := Nat.digits_lt_base (by norm_num) (List.mem_reverse.mp hd)
    unfold hexDigitChar
    by_cases h10 : d < 10
    · rw [if_pos h10]; omega
    · rw [if_neg h10]; omega

theorem hex8_mem (n : Nat) :
    ∀ x ∈ hex8 n, (48 ≤ x ∧ x ≤ 57) ∨ (97 ≤ x ∧ x ≤ 102) := by
  intro x hx
  unfold hex8 at hx
  rcases List.mem_append.mp hx with h | h
  · have := List.eq_of_mem_replicate h
    omega
  · exact hexDigits_mem n x h

/-! ## Fragment parsing lemmas -/

theorem splitComma_append (a : List Nat) :
    ∀ b : List Nat, (∀ x ∈ a, x ≠ 44) →
      splitComma (a ++ 44 :: b) = a :: splitComma b := by
  induction a with
  | nil =>
      intro b _
      simp [splitComma]
  | cons c a ih =>
      intro b h
      have hc : c ≠ 44 := h c (List.mem_cons_self c a)
      have := ih b (fun x hx => h x (List.mem_cons_of_mem c hx))
      simp only [List.cons_append, splitComma, if_neg hc, List.append_eq, this]

theorem splitComma_single (b : List Nat) (h : ∀ x ∈ b, x ≠ 44) :
    splitComma (b ++ [44]) = [b, []] := by
  have := splitComma_append b [] h
  simpa [splitComma] using this

theorem parseFragmentFields_generated (idx total : Nat) (payload : List Nat)
    (hidx : idx < 65536) (htot : total < 65536)
    (hp : ∀ x ∈ payload, x ≠ 44) :
    parseFragmentFields
        (pad5 idx ++ 44 :: (pad5 total ++ 44 :: (payload ++ [44]))) =
      some (idx, total, payload) := by
  have h1 : ∀ x ∈ pad5 idx, x ≠ 44 := by
    intro x hx
    have := pad5_mem idx x hx
    omega
  have h2 : ∀ x ∈ pad5 total, x ≠ 44 := by
    intro x hx
    have := pad5_mem total x hx
    omega
  unfold parseFragmentFields
  rw [splitComma_append (pad5 idx) _ h1, splitComma_append (pad5 total) _ h2,
    splitComma_single payload hp]
  simp [parseUint16_pad5 idx hidx, parseUint16_pad5 total htot]

theorem parseItagHeader_generated (snd rcv : Nat) (rest : List Nat)
    (hs : snd < 2 ^ 32) (hr : rcv < 2 ^ 32) :
    parseItagHeader (hex8 snd ++ 124 :: (hex8 rcv ++ 44 :: rest)) =
      some (snd, rcv, rest) := by
  have hls : (hex8 snd).length = 8 := hex8_length snd hs
  have hlr : (hex8 rcv).length = 8 := hex8_length rcv hr
  set l := hex8 snd ++ 124 :: (hex8 rcv ++ 44 :: rest) with hl
  have htake : l.take 8 = hex8 snd := List.take_left' hls
  have hdrop8 : l.drop 8 = 124 :: (hex8 rcv ++ 44 :: rest) := List.drop_left' hls
  have hdrop9 : l.drop 9 = hex8 rcv ++ 44 :: rest := by
    rw [show (9 : Nat) = 8 + 1 from rfl, ← List.drop_drop 1 8 l, hdrop8]
    simp
  have hdrop17 : l.drop 17 = 44 :: rest := by
    rw [show (17 : Nat) = 9 + 8 from rfl, ← List.drop_drop 8 9 l, hdrop9,
      List.drop_left' hlr]
  have hdrop18 : l.drop 18 = rest := by
    rw [show (18 : Nat) = 17 + 1 from rfl, ← List.drop_drop 1 17 l, hdrop17]
    simp
  have htake9 : (l.drop 9).take 8 = hex8 rcv := by
    rw [hdrop9, List.take_left' hlr]
  unfold parseItagHeader
  rw [htake, parseHex8_hex8 snd hs]
  simp only [hdrop8, List.head?_cons, htake9, parseHex8_hex8 rcv hr, hdrop17,
    hdrop18]
  simp

theorem isPrefixOf_append (l r : List Nat) : l.isPrefixOf (l ++ r) = true := by
  induction l with
  | nil => simp [List.isPrefixOf]
  | cons a as ih => simp [List.isPrefixOf, ih]

/-! ## Reassembly step lemmas -/

theorem receiveFragment_v2_step (our their s t idx total : Nat)
    (payload : List Nat) (ctx : fragmentationContextT)
    (hidx : idx < 65536) (htot : total < 65536)
    (hp : ∀ x ∈ payload, x ≠ 44) :
    receiveFragment .V2 our their ctx
        (fragmentPrefix .V2 s t idx total ++ payload ++ [44]) =
      (applyFragment ctx idx total payload, .ok) := by
  have hR : fragmentPrefix .V2 s t idx total ++ payload ++ [44] =
      strBytes "?OTR," ++
        (pad5 idx ++ 44 :: (pad5 total ++ 44 :: (payload ++ [44]))) := by
    simp [fragmentPrefix]
  rw [hR]
  unfold receiveFragment
  rw [if_neg (by rintro ⟨-, h⟩; cases h)]
  rw [if_pos (isPrefixOf_append _ _)]
  rw [List.drop_left' (by decide : (strBytes "?OTR,").length = 5)]
  rw [parseFragmentFields_generated idx total payload hidx htot hp]

theorem receiveFragment_v3_step (our their s t idx total : Nat)
    (payload : List Nat) (ctx : fragmentationContextT)
    (hs1 : 256 ≤ s) (hs2 : s < 2 ^ 32) (ht2 : t < 2 ^ 32)
    (hrcv : t = our) (hsnd : s = their ∨ their = 0)
    (hidx : idx < 65536) (htot : total < 65536)
    (hp : ∀ x ∈ payload, x ≠ 44) :
    receiveFragment .V3 our their ctx
        (fragmentPrefix .V3 s t idx total ++ payload ++ [44]) =
      (applyFragment ctx idx total payload, .ok) := by
  have hR : fragmentPrefix .V3 s t idx total ++ payload ++ [44] =
      strBytes "?OTR|" ++ (hex8 s ++ 124 :: (hex8 t ++ 44 ::
        (pad5 idx ++ 44 :: (pad5 total ++ 44 :: (payload ++ [44]))))) := by
    simp [fragmentPrefix]
  rw [hR]
  unfold receiveFragment
  rw [if_pos ⟨isPrefixOf_append _ _, rfl⟩]
  rw [List.drop_left' (by decide : (strBytes "?OTR|").length = 5)]
  have hcond : ¬ (t ≠ our ∨ (s ≠ 0 ∧ their ≠ 0 ∧ s ≠ their)) := by
    rintro (h | ⟨h1, h2, h3⟩)
    · exact h hrcv
    · rcases hsnd with h' | h'
      · exact h3 h'
      · exact h2 h'
  simp only [parseItagHeader_generated s t _ hs2 ht2,
    parseFragmentFields_generated idx total payload hidx htot hp,
    if_neg hcond, if_neg (by omega : ¬ s < 256)]

/-! ## State machine and chunking lemmas -/

theorem applyFragment_first (ctx : fragmentationContextT) (total : Nat)
    (payload : List Nat) (h : 1 ≤ total) :
    applyFragment ctx 1 total payload = ⟨payload, 1, total⟩ := by
  unfold applyFragment
  rw [if_neg (by omega), if_pos rfl]

theorem applyFragment_next (B : List Nat) (i total : Nat) (payload : List Nat)
    (h1 : 1 ≤ i) (h2 : i + 1 ≤ total) :
    applyFragment ⟨B, i, total⟩ (i + 1) total payload =
      ⟨B ++ payload, i + 1, total⟩ := by
  unfold applyFragment
  rw [if_neg (by omega), if_neg (by omega), if_pos ⟨rfl, rfl⟩]

theorem receiveAll_fold (v : otrVersionT) (our their s t n : Nat)
    (H : ∀ (ctx : fragmentationContextT) (idx total : Nat) (payload : List Nat),
      idx < 65536 → total < 65536 → (∀ x ∈ payload, x ≠ 44) →
      receiveFragment v our their ctx
          (fragmentPrefix v s t idx total ++ payload ++ [44]) =
        (applyFragment ctx idx total payload, .ok))
    (hn : n < 65536) :
    ∀ (ps : List (List Nat)) (i : Nat) (B : List Nat),
      1 ≤ i → i + ps.length ≤ n →
      (∀ p ∈ ps, ∀ x ∈ p, x ≠ 44) →
      List.foldl (fun c m => (receiveFragment v our their c m).1) ⟨B, i, n⟩
          (fragmentAux v s t n (i + 1) ps) =
        ⟨B ++ ps.flatten, i + ps.length, n⟩ := by
  intro ps
  induction ps with
  | nil =>
      intro i B _ _ _
      simp [fragmentAux]
  | cons p ps ih =>
      intro i B hi hlen hmem
      have hp : ∀ x ∈ p, x ≠ 44 := hmem p (List.mem_cons_self p ps)
      have hstep := H ⟨B, i, n⟩ (i + 1) n p
        (by simp at hlen; omega) hn hp
      have happ : applyFragment ⟨B, i, n⟩ (i + 1) n p = ⟨B ++ p, i + 1, n⟩ :=
        applyFragment_next B i n p hi (by simp at hlen; omega)
      simp only [fragmentAux, List.foldl_cons, hstep, happ]
      have := ih (i + 1) (B ++ p) (by omega)
        (by simp at hlen ⊢; omega)
        (fun q hq x hx => hmem q (List.mem_cons_of_mem p hq) x hx)
      rw [this]
      simp only [List.flatten_cons, List.append_assoc, List.length_cons]
      congr 1
      omega

theorem chunksOfAux_fuel (F : Nat) :
    ∀ fuel fuel' (l : List Nat), l.length ≤ fuel → l.length ≤ fuel' →
      chunksOfAux F fuel l = chunksOfAux F fuel' l := by
  intro fuel
  induction fuel with
  | zero =>
      intro fuel' l hl _
      have : l = [] := List.length_eq_zero.mp (by omega)
      subst this
      cases fuel' <;> simp [chunksOfAux]
  | succ fuel ih =>
      intro fuel' l hl hl'
      by_cases hend : l = [] ∨ F = 0
      · cases fuel' <;> simp [chunksOfAux, hend]
      · push_neg at hend
        obtain ⟨hne, hF⟩ := hend
        have hpos : 0 < l.length := List.length_pos.mpr hne
        cases fuel' with
        | zero => omega
        | succ fuel' =>
            rw [chunksOfAux, chunksOfAux,
              if_neg (by simp [hne, hF]), if_neg (by simp [hne, hF])]
            have hd : (l.drop F).length ≤ fuel := by
              simp only [List.length_drop]
              omega
            have hd' : (l.drop F).length ≤ fuel' := by
              simp only [List.length_drop]
              omega
            rw [ih fuel' (l.drop F) hd hd']

theorem chunksOf_eq (F : Nat) (l : List Nat) (hne : l ≠ []) (hF : F ≠ 0) :
    chunksOf F l = l.take F :: chunksOf F (l.drop F) := by
  unfold chunksOf
  have hpos : 0 < l.length := List.length_pos.mpr hne
  obtain ⟨m, hm⟩ : ∃ m, l.length = m + 1 := ⟨l.length - 1, by omega⟩
  rw [hm, chunksOfAux, if_neg (by simp [hne, hF])]
  congr 1
  exact chunksOfAux_fuel F m (l.drop F).length (l.drop F)
    (by simp only [List.length_drop]; omega) le_rfl

theorem chunksOf_nil (F : Nat) : chunksOf F [] = [] := by
  simp [chunksOf, chunksOfAux]

theorem chunksOf_join (F : Nat) (hF : F ≠ 0) (l : List Nat) :
    (chunksOf F l).flatten = l := by
  suffices H : ∀ (n : Nat) (l : List Nat), l.length = n → (chunksOf F l).flatten = l by
    exact H l.length l rfl
  intro n
  induction n using Nat.strong_induction_on with
  | _ n ih =>
      intro l hn
      by_cases hne : l = []
      · subst hne; simp [chunksOf_nil]
      · rw [chunksOf_eq F l hne hF]
        have hpos : 0 < l.length := List.length_pos.mpr hne
        have hFpos : 0 < F := Nat.pos_of_ne_zero hF
        have hlt : (l.drop F).length < n := by
          simp only [List.length_drop]
          omega
        rw [List.flatten_cons, ih (l.drop F).length (by omega) (l.drop F) rfl,
          List.take_append_drop]

theorem chunksOf_length_formula (F : Nat) (hF : F ≠ 0) (l : List Nat) :
    (chunksOf F l).length = (l.length + F - 1) / F := by
  suffices H : ∀ (n : Nat) (l : List Nat), l.length = n →
      (chunksOf F l).length = (l.length + F - 1) / F by
    exact H l.length l rfl
  intro n
  induction n using Nat.strong_induction_on with
  | _ n ih =>
      intro l hn
      by_cases hne : l = []
      · subst hne
        simp only [List.length_nil] at hn
        subst hn
        simp [chunksOf_nil]
        exact (Nat.div_eq_of_lt (by omega : F - 1 < F)).symm
      · rw [chunksOf_eq F l hne hF]
        have hpos : 0 < l.length := List.length_pos.mpr hne
        have hFpos : 0 < F := Nat.pos_of_ne_zero hF
        have hlt : (l.drop F).length < n := by
          simp only [List.length_drop]
          omega
        rw [List.length_cons, ih (l.drop F).length (by omega) (l.drop F) rfl]
        simp only [List.length_drop]
        rcases Nat.le_total l.length F with hle | hle
        · have h1 : l.length - F + F - 1 = F - 1 := by omega
          have h2 : l.length + F - 1 = (l.length - 1) + F := by omega
          rw [h1, h2, Nat.add_div_right _ hFpos,
            Nat.div_eq_of_lt (by omega : F - 1 < F),
            Nat.div_eq_of_lt (by omega : l.length - 1 < F)]
        · have h1 : l.length - F + F - 1 = l.length - 1 := by omega
          have h2 : l.length + F - 1 = (l.length - 1) + F := by omega
          rw [h1, h2, Nat.add_div_right _ hFpos]

theorem chunksOf_mem (F : Nat) (l : List Nat) :
    ∀ p ∈ chunksOf F l, ∀ x ∈ p, x ∈ l := by
  suffices H : ∀ (n : Nat) (l : List Nat), l.length = n →
      ∀ p ∈ chunksOf F l, ∀ x ∈ p, x ∈ l by
    exact H l.length l rfl
  intro n
  induction n using Nat.strong_induction_on with
  | _ n ih =>
      intro l hn p hp x hx
      by_cases hne : l = []
      · subst hne; simp [chunksOf_nil] at hp
      · by_cases hF : F = 0
        · subst hF
          have hempty : chunksOf 0 l = [] := by
            unfold chunksOf
            cases hL : l.length with
            | zero => simp [chunksOfAux]
            | succ m => simp [chunksOfAux]
          rw [hempty] at hp
          simp at hp
        · rw [chunksOf_eq F l hne hF] at hp
          have hpos : 0 < l.length := List.length_pos.mpr hne
          have hFpos : 0 < F := Nat.pos_of_ne_zero hF
          rcases List.mem_cons.mp hp with h | h
          · subst h
            exact List.take_subset F l hx
          · have hlt : (l.drop F).length < n := by
              simp only [List.length_drop]
              omega
            exact List.drop_subset F l
              (ih (l.drop F).length (by omega) (l.drop F) rfl p h x hx)

theorem fragmentAux_length (v : otrVersionT) (s t total : Nat) :
    ∀ (idx : Nat) (ps : List (List Nat)),
      (fragmentAux v s t total idx ps).length = ps.length := by
  intro idx ps
  induction ps generalizing idx with
  | nil => rfl
  | cons p ps ih => simp [fragmentAux, ih]

theorem reassemble_of_two_le (v : otrVersionT) (our their : Nat)
    (msgs : List (List Nat)) (h : 2 ≤ msgs.length) :
    reassemble v our their msgs =
      (if fragmentsFinished (receiveAll v our their msgs) then
        some (receiveAll v our their msgs).frag
       else none) := by
  match msgs, h with
  | m1 :: m2 :: rest, _ => rfl

/-! ## Claim theorems -/

/-- C2 counterexample: the query message `"?OTRv23?"` advertises versions
`[2, 3]`; with a policy allowing both v2 and v3 the source selects v2 —
the first advertised allowed version — not the highest (v3), so the claim
as stated is false. -/
theorem C2_counterexample :
    parseOTRQueryMessage (strBytes "?OTRv23?") = [2, 3] ∧
    acceptOTRRequest ⟨true, true⟩ (strBytes "?OTRv23?") = some otrVersionT.V2 ∧
    some otrVersionT.V2 ≠ some otrVersionT.V3 := by
  refine ⟨by decide, by decide, by decide⟩

/-- C2 (amended): version acceptance selects the first advertised version
(in the order the versions appear in the query message) that the policy
allows, and `receiveQueryMessage` fails with `InvalidVersion` exactly
when no advertised version is allowed. -/
theorem C2_receiveQueryMessage_first_allowed (p : policies) (msg : List Nat) :
    receiveQueryMessage p msg =
      (match specFirstAllowedVersion p msg with
       | some v => Except.ok v
       | none => Except.error otrError.invalidVersion) := by
  unfold receiveQueryMessage acceptOTRRequest specFirstAllowedVersion
  rw [acceptVersions_eq_find]
  cases (parseOTRQueryMessage msg).find?
      (fun v => (v == 3 && p.allowV3) || (v == 2 && p.allowV2)) <;> simp

/-- C3 counterexample: the DH-Key byte string `00 00 00 01 03 FF` carries
the single MPI `3` followed by one trailing byte, yet `dhKey.deserialize`
accepts it (`extractMPI` discards the remainder unchecked), so the claim
that trailing bytes after a single-MPI payload yield a corrupt-message
error is false. -/
theorem C3_counterexample :
    extractMPI [0, 0, 0, 1, 3, 255] = some ([255], 3) ∧
    dhKeyDeserialize [0, 0, 0, 1, 3, 255] = Except.ok 3 := by
  constructor
  · decide
  · show dhKeyDeserialize [0, 0, 0, 1, 3, 255] = Except.ok 3
    have h : extractMPI [0, 0, 0, 1, 3, 255] = some ([255], 3) := by decide
    unfold dhKeyDeserialize
    rw [h]
    norm_num [g1, pMinusTwo, otrPrime]

/-- C3 (amended): AKE wire deserialization fails with the corresponding
corrupt-message error whenever a length field exceeds the remaining input
(all three message types) or the MAC field is not 20 bytes long
(Reveal-Signature and Signature); the DH-Key deserialization, however,
ignores trailing bytes after its single MPI and succeeds on any in-range
value. -/
theorem C3_deserialize_errors (msg : List Nat) :
    (extractMPI msg = none → dhKeyDeserialize msg = .error .corruptDHKey) ∧
    (∀ rest gy, extractMPI msg = some (rest, gy) → g1 ≤ gy → gy ≤ pMinusTwo →
      dhKeyDeserialize msg = .ok gy) ∧
    (extractData msg = none → revealSigDeserialize msg = .error .corruptRevealSig) ∧
    (∀ inRest r, extractData msg = some (inRest, r) → extractData inRest = none →
      revealSigDeserialize msg = .error .corruptRevealSig) ∧
    (∀ inRest r macSig enc, extractData msg = some (inRest, r) →
      extractData inRest = some (macSig, enc) → macSig.length ≠ 20 →
      revealSigDeserialize msg = .error .corruptRevealSig) ∧
    (extractData msg = none → sigDeserialize msg = .error .corruptSig) ∧
    (∀ macSig enc, extractData msg = some (macSig, enc) → macSig.length ≠ 20 →
      sigDeserialize msg = .error .corruptSig) := by
  refine ⟨?_, ?_, ?_, ?_, ?_, ?_, ?_⟩
  · intro h; unfold dhKeyDeserialize; rw [h]
  · intro rest gy h h1 h2
    unfold dhKeyDeserialize
    rw [h]
    have : ¬ (gy < g1 ∨ gy > pMinusTwo) := by omega
    simp [this]
  · intro h; unfold revealSigDeserialize; rw [h]
  · intro inRest r h1 h2; simp [revealSigDeserialize, h1, h2]
  · intro inRest r macSig enc h1 h2 h3
    simp [revealSigDeserialize, h1, h2, h3]
  · intro h; unfold sigDeserialize; rw [h]
  · intro macSig enc h1 h2; unfold sigDeserialize; rw [h1]; simp [h2]

/-- C3 witness: concrete inputs exercising the amended theorem — a DH-Key
message whose length field (5) exceeds the single remaining byte is
corrupt; a Signature message with a 1-byte MAC is corrupt. -/
theorem C3_deserialize_errors_witness :
    dhKeyDeserialize [0, 0, 0, 5, 1] = .error .corruptDHKey ∧
    sigDeserialize [0, 0, 0, 1, 7, 9] = .error .corruptSig := by
  constructor
  · exact (C3_deserialize_errors [0, 0, 0, 5, 1]).1 (by decide)
  · exact (C3_deserialize_errors [0, 0, 0, 1, 7, 9]).2.2.2.2.2.2 [9] [7]
      (by decide) (by decide)

/-- C7: any DH-Key message whose MPI value lies outside the group range
`[2, p-2]` makes `processDHKey` return the DH-value-out-of-range error
with the AKE context unchanged (so the value is never stored). -/
theorem C7_processDHKey_out_of_range (a : akeT) (msg rest : List Nat) (gy : Nat)
    (hp : extractMPI msg = some (rest, gy))
    (hout : gy < g1 ∨ gy > pMinusTwo) :
    processDHKey a msg = (false, a, some .dhValueOutOfRange) := by
  unfold processDHKey dhKeyDeserialize
  rw [hp]
  simp [hout]

/-- C7 witness: `gy = 1 < 2` is rejected and the context is unchanged. -/
theorem C7_processDHKey_out_of_range_witness :
    processDHKey akeEx [0, 0, 0, 1, 1] = (false, akeEx, some .dhValueOutOfRange) :=
  C7_processDHKey_out_of_range akeEx [0, 0, 0, 1, 1] [] 1 (by decide)
    (Or.inl (by norm_num [g1]))

/-- C9: once `theirPublicValue` is set, `processDHKey` never overwrites
it — for any valid group element received, the stored value is returned
unchanged and the boolean result only reports whether the incoming `gy`
equals it. -/
theorem C9_processDHKey_never_overwrites (a : akeT) (v : Nat) (msg rest : List Nat)
    (gy : Nat) (hstored : a.theirPublicValue = some v)
    (hp : extractMPI msg = some (rest, gy))
    (hgrp : isGroupElement gy = true) :
    processDHKey a msg = (v == gy, a, none) := by
  have hrange : ¬ (gy < g1 ∨ gy > pMinusTwo) := by
    have := hgrp
    unfold isGroupElement at this
    rw [Bool.and_eq_true] at this
    have h1 := of_decide_eq_true this.1
    have h2 := of_decide_eq_true this.2
    omega
  unfold processDHKey dhKeyDeserialize
  rw [hp]
  simp only [hrange, if_false, hgrp, hstored]
  simp

/-- C9 witness: a stored value 7 stays stored when the same or another
valid element arrives; the boolean reports equality. -/
theorem C9_processDHKey_never_overwrites_witness :
    processDHKey akeEx [0, 0, 0, 1, 7] = (true, akeEx, none) ∧
    akeEx.theirPublicValue = some 7 := by
  constructor
  · have := C9_processDHKey_never_overwrites akeEx 7 [0, 0, 0, 1, 7] [] 7
      (by decide) (by decide) (by decide)
    simpa using this
  · decide

/-- C10: the data-message body deserializer is not total — on the empty
input the source indexes `msg[0]` with no bounds check and panics instead
of returning an error; a 1-byte TLV remainder likewise panics in the
header slicing, while an overlong TLV length is reported as an error. -/
theorem C10_dataMsgDeserialize_empty_panics :
    dataMsgDeserialize [] = .panic ∧
    dataMsgDeserialize [0, 5] = .panic ∧
    dataMsgDeserialize [0, 0, 1, 0, 3, 7, 7] = .error .wrongTLVLength := by
  refine ⟨rfl, ?_, ?_⟩
  · simp [dataMsgDeserialize]
    rw [parseTLVs]
    norm_num
  · simp [dataMsgDeserialize]
    rw [parseTLVs]
    norm_num [be16]

/-- C6: for every state of the SMP state machine and every numbered SMP
message whose number differs from the one the state expects, dispatch
falls through to the `smpStateBase` handler: the machine resets to
`Expect1` and the SMP Abort message is returned to send (with no error),
for any outcome of the protocol helpers. -/
theorem C6_smp_mismatch_aborts (env : smpEnv) (s : smpStateT) (m : smpMessageT)
    (hnotabort : m ≠ .abortMsg)
    (hmismatch : smpMessageNumber m ≠ expectedMessageNumber s) :
    smpReceive env s m = (.expect1, some .abortMsg, none) := by
  cases m <;> cases s <;>
    first
      | rfl
      | exact absurd rfl hnotabort
      | exact absurd rfl hmismatch

/-- C6 witness: a peer in `Expect3` receiving msg1 returns the Abort
message and transitions to `Expect1` (spec scenario 7). -/
theorem C6_smp_mismatch_aborts_witness :
    smpReceive ⟨none, none, none, none, none, none, true, true, true⟩
        .expect3 .msg1 = (.expect1, some .abortMsg, none) :=
  C6_smp_mismatch_aborts ⟨none, none, none, none, none, none, true, true, true⟩
    .expect3 .msg1 (by decide) (by decide)

/-- C4: `Conversation.End` never touches the AKE context — evaluated on a
concrete mid-AKE conversation, the secret exponent, `r`, and both derived
key bundles read back with their original nonzero values after `End()`,
contradicting the claim that they read as zero. -/
theorem C4_end_leaves_ake_secrets :
    (∀ c : conversationT, (conversationEnd c).ake = c.ake) ∧
    (conversationEnd convEx).ake = some akeEx ∧
    akeEx.secretExponent = some 5 ∧
    akeEx.r ≠ List.replicate 16 0 ∧
    akeEx.revealKey ≠ ⟨List.replicate 16 0, List.replicate 32 0, List.replicate 32 0⟩ := by
  refine ⟨?_, by decide, by decide, by decide, by decide⟩
  intro c
  unfold conversationEnd
  by_cases h : c.msgState = .encrypted <;> simp [h]

/-- C5: decode-after-encode is never the identity on AKE contexts:
`GobEncode` writes `r` as the token after the optional public values, but
`GobDecode` never reads `r` and instead tries to read that `[16]byte`
token into the `[]byte` field `encryptedGx`, a gob type mismatch — so
decoding an encoded context always fails, for every context and every
receiver.  On the example context the fourth token is indeed the `r`
array. -/
theorem C5_gob_roundtrip_fails :
    (∀ a a0 : akeT, akeGobDecode a0 (akeGobEncode a) = .error .gobTypeMismatch) ∧
    (akeGobEncode akeEx).get? 3 = some (gobValue.vArr16 (List.replicate 16 1)) := by
  constructor
  · intro a a0
    unfold akeGobEncode akeGobDecode
    cases a.secretExponent <;> cases a.ourPublicValue <;>
      cases a.theirPublicValue <;> rfl
  · decide

/-- C1 counterexample: the 27-byte message consisting solely of comma
bytes, fragmented under v3 with limit 26 (the v3 minimum fragment size)
and matching instance tags, does not reassemble: the comma bytes inside
the payloads break the comma-split fragment parse, so reassembly returns
nothing rather than the original message. -/
theorem C1_counterexample :
    minFragmentSize .V3 ≤ 26 ∧
    reassemble .V3 256 256
        (fragment .V3 256 256 (List.replicate 27 44) 26) = none := by
  exact ⟨by decide, by decide⟩

/-- C1 (amended): for every byte string `M` that contains no comma byte
and does not itself begin with a fragmentation prefix, every limit `F` at
least the version's minimum fragment size that produces at most 65535
fragments, and valid 32-bit instance tags, fragmenting `M` and
reassembling the fragments in order at the peer conversation (whose
our-tag is the fragments' receiver tag and whose their-tag is their
sender tag) yields exactly `M`; and whenever `|M| ≤ F` the fragment
operation returns the single element `M` verbatim. -/
theorem C1_fragment_reassemble (v : otrVersionT) (s t : Nat) (M : List Nat)
    (F : Nat)
    (hF : minFragmentSize v ≤ F)
    (hcomma : ∀ x ∈ M, x ≠ 44)
    (hnf : isFragmented v M = false)
    (hcount : (M.length + F - 1) / F < 65536)
    (hs1 : 256 ≤ s) (hs2 : s < 2 ^ 32) (ht2 : t < 2 ^ 32) :
    reassemble v t s (fragment v s t M F) = some M ∧
    (M.length ≤ F → fragment v s t M F = [M]) := by
  have hFpos : F ≠ 0 := by
    cases v <;> simp [minFragmentSize] at hF <;> omega
  have hsingle : M.length ≤ F → fragment v s t M F = [M] := by
    intro h
    simp [fragment, h]
  refine ⟨?_, hsingle⟩
  by_cases hle : M.length ≤ F
  · rw [hsingle hle]
    simp [reassemble, hnf]
  · push_neg at hle
    have hMne : M ≠ [] := by
      intro h
      rw [h] at hle
      simp at hle
    have hdne : M.drop F ≠ [] := by
      intro h
      have := congrArg List.length h
      simp at this
      omega
    have h1 : chunksOf F M = M.take F :: chunksOf F (M.drop F) :=
      chunksOf_eq F M hMne hFpos
    have h2 : chunksOf F (M.drop F) =
        (M.drop F).take F :: chunksOf F ((M.drop F).drop F) :=
      chunksOf_eq F (M.drop F) hdne hFpos
    have hnlt : (chunksOf F M).length < 65536 := by
      rw [chunksOf_length_formula F hFpos M]
      exact hcount
    have hjoin : (chunksOf F M).flatten = M := chunksOf_join F hFpos M
    have hfrag : fragment v s t M F =
        fragmentAux v s t (chunksOf F M).length 1 (chunksOf F M) := by
      unfold fragment
      rw [if_neg (by omega)]
    have H : ∀ (ctx : fragmentationContextT) (idx total : Nat)
        (payload : List Nat), idx < 65536 → total < 65536 →
        (∀ x ∈ payload, x ≠ 44) →
        receiveFragment v t s ctx
            (fragmentPrefix v s t idx total ++ payload ++ [44]) =
          (applyFragment ctx idx total payload, .ok) := by
      intro ctx idx total payload hidx htot hp
      cases v with
      | V2 =>
          exact receiveFragment_v2_step t s s t idx total payload ctx
            hidx htot hp
      | V3 =>
          exact receiveFragment_v3_step t s s t idx total payload ctx
            hs1 hs2 ht2 rfl (Or.inl rfl) hidx htot hp
    have hlen2 : 2 ≤ (fragment v s t M F).length := by
      rw [hfrag, fragmentAux_length, h1, h2]
      simp
    rw [reassemble_of_two_le v t s _ hlen2]
    have hn1 : (chunksOf F M).length = (chunksOf F (M.drop F)).length + 1 := by
      rw [h1]
      simp
    have hmem1 : ∀ x ∈ M.take F, x ≠ 44 :=
      fun x hx => hcomma x (List.take_subset F M hx)
    have hmem2 : ∀ p ∈ chunksOf F (M.drop F), ∀ x ∈ p, x ≠ 44 :=
      fun p hp x hx =>
        hcomma x (List.drop_subset F M (chunksOf_mem F (M.drop F) p hp x hx))
    have hall : receiveAll v t s (fragment v s t M F) =
        ⟨M, (chunksOf F M).length, (chunksOf F M).length⟩ := by
      rw [hfrag]
      unfold receiveAll
      set n := (chunksOf F M).length with hn
      rw [h1]
      simp only [fragmentAux, List.foldl_cons]
      rw [H emptyFragmentationContext 1 n (M.take F) (by omega) hnlt hmem1]
      have happ1 : applyFragment emptyFragmentationContext 1 n (M.take F) =
          ⟨M.take F, 1, n⟩ :=
        applyFragment_first _ _ _ (by omega)
      rw [happ1]
      rw [receiveAll_fold v t s s t n H hnlt
        (chunksOf F (M.drop F)) 1 (M.take F) le_rfl (by omega) hmem2]
      have : M.take F ++ (chunksOf F (M.drop F)).flatten = M := by
        have := hjoin
        rw [h1] at this
        simpa using this
      rw [this]
      congr 1
      omega
    rw [hall]
    have hfin : fragmentsFinished
        ⟨M, (chunksOf F M).length, (chunksOf F M).length⟩ = true := by
      simp [fragmentsFinished]
      omega
    rw [hfin]
    simp

/-- C1 witness: the spec's scenario-1 vectors — `"one two three"` with
`F = 26 = minFragmentSize(v3)` and tags `0x100`/`0x102` passes through
verbatim and reassembles at the peer; a 36-byte comma-free message with
`F = 26` is split into two fragments that reassemble to the original. -/
theorem C1_fragment_reassemble_witness :
    reassemble .V3 258 256
        (fragment .V3 256 258 (strBytes "one two three") 26) =
      some (strBytes "one two three") ∧
    fragment .V3 256 258 (strBytes "one two three") 26 =
      [strBytes "one two three"] ∧
    reassemble .V3 258 256
        (fragment .V3 256 258 (strBytes "the quick brown fox jumps over a dog") 26) =
      some (strBytes "the quick brown fox jumps over a dog") := by
  have h1 := C1_fragment_reassemble .V3 256 258 (strBytes "one two three") 26
    (by decide) (by decide) (by decide) (by decide) (by decide) (by decide)
    (by decide)
  have h2 := C1_fragment_reassemble .V3 256 258
    (strBytes "the quick brown fox jumps over a dog") 26
    (by decide) (by decide) (by decide) (by decide) (by decide) (by decide)
    (by decide)
  exact ⟨h1.1, h1.2 (by decide), h2.1⟩

/-- C8: for a v3 fragment carrying sender/receiver instance tags, a
receiver tag differing from our tag — or a sender tag differing from the
stored their-tag when both are set — makes `receiveFragment` return the
existing context completely unchanged with the
`ReceivedMessageForOtherInstance` event; and when the tag filter passes,
a sender tag below `0x100` yields the `MessageMalformed` event, again
with the context unchanged. -/
theorem C8_v3_instance_tag_filter (our their snd rcv : Nat)
    (ctx : fragmentationContextT) (body payload : List Nat) (idx total : Nat)
    (hs32 : snd < 2 ^ 32) (hr32 : rcv < 2 ^ 32)
    (hbody : parseFragmentFields body = some (idx, total, payload)) :
    (rcv ≠ our ∨ (snd ≠ 0 ∧ their ≠ 0 ∧ snd ≠ their) →
      receiveFragment .V3 our their ctx
          (strBytes "?OTR|" ++ (hex8 snd ++ 124 :: (hex8 rcv ++ 44 :: body))) =
        (ctx, .evOtherInstance)) ∧
    (rcv = our → (snd = 0 ∨ their = 0 ∨ snd = their) → snd < 256 →
      receiveFragment .V3 our their ctx
          (strBytes "?OTR|" ++ (hex8 snd ++ 124 :: (hex8 rcv ++ 44 :: body))) =
        (ctx, .evMalformed)) := by
  constructor
  · intro hmis
    unfold receiveFragment
    rw [if_pos ⟨isPrefixOf_append _ _, rfl⟩,
      List.drop_left' (by decide : (strBytes "?OTR|").length = 5)]
    simp only [parseItagHeader_generated snd rcv body hs32 hr32, hbody]
    rw [if_pos hmis]
  · intro h1 h2 h3
    unfold receiveFragment
    rw [if_pos ⟨isPrefixOf_append _ _, rfl⟩,
      List.drop_left' (by decide : (strBytes "?OTR|").length = 5)]
    simp only [parseItagHeader_generated snd rcv body hs32 hr32, hbody]
    have hcond : ¬ (rcv ≠ our ∨ (snd ≠ 0 ∧ their ≠ 0 ∧ snd ≠ their)) := by
      rintro (h | ⟨ha, hb, hc⟩)
      · exact h h1
      · rcases h2 with h' | h' | h'
        · exact ha h'
        · exact hb h'
        · exact hc h'
    rw [if_neg hcond, if_pos h3]

/-- C8 witness: the test vectors — with our tag `0x103` and their tag
`0x104`, a fragment from sender `0x204` to receiver `0x103` leaves the
existing context unchanged and signals the other-instance event; with
their tag `0x0A`, a fragment from sender `0x0A` (below `0x100`) to us
signals the malformed-message event. -/
theorem C8_v3_instance_tag_filter_witness :
    receiveFragment .V3 259 260 ⟨strBytes "existing", 2, 4⟩
        (strBytes "?OTR|" ++
          (hex8 516 ++ 124 :: (hex8 259 ++ 44 :: strBytes "00001,00004,one ,"))) =
      (⟨strBytes "existing", 2, 4⟩, .evOtherInstance) ∧
    receiveFragment .V3 259 10 ⟨[], 0, 0⟩
        (strBytes "?OTR|" ++
          (hex8 10 ++ 124 :: (hex8 259 ++ 44 :: strBytes "00001,00004,one ,"))) =
      (⟨[], 0, 0⟩, .evMalformed) := by
  constructor
  · exact (C8_v3_instance_tag_filter 259 260 516 259 ⟨strBytes "existing", 2, 4⟩
      (strBytes "00001,00004,one ,") (strBytes "one ") 1 4
      (by decide) (by decide) (by decide)).1
      (Or.inr ⟨by decide, by decide, by decide⟩)
  · exact (C8_v3_instance_tag_filter 259 10 10 259 ⟨[], 0, 0⟩
      (strBytes "00001,00004,one ,") (strBytes "one ") 1 4
      (by decide) (by decide) (by decide)).2
      rfl (Or.inr (Or.inr rfl)) (by decide)

end Otr3
